import Mathlib

/-!
Verification of the NoteOrganiser repository (`noteorganiser/configuration.py`,
`noteorganiser/frames.py`) against its natural-language specification.

The repository's core parser / tag-filter / emitter (`text_processing.py`) and
its constants module are not part of the available sources; where a claim
depends on them, the corresponding definitions are modelled from the
specification text and are marked `Modelled from the spec:` in their doc
comments.  Everything else is translated directly from the Python sources.

The file is organized as definitions first, then the supporting lemmas and the
claim theorems.
-/

namespace NoteOrganiser

/-! ## Generic string helpers (embeddings of Python string primitives) -/

/-- Prefix test on character lists, used to embed Python substring search. -/
def listIsPre (p l : List Char) : Bool :=
  match p, l with
  | [], _ => true
  | _ :: _, [] => false
  | a :: as, b :: bs => a = b && listIsPre as bs

/-- Auxiliary recursion for Python `str.find`: index of the first position of
`hay` at which `needle` starts, if any. -/
def pyFindAux (needle : List Char) : List Char → Option Nat
  | [] => if listIsPre needle [] then some 0 else none
  | c :: rest =>
      if listIsPre needle (c :: rest) then some 0
      else (pyFindAux needle rest).map (· + 1)

/-- Embedding of Python `hay.find(needle)`: index of the first occurrence of
`needle` as a substring of `hay`, or `-1` when there is none. -/
def pyFind (hay needle : String) : Int :=
  match pyFindAux needle.data hay.data with
  | some i => (i : Int)
  | none => -1

/-- Embedding of Python `hay.endswith(needle)`. -/
def pyEndsWith (hay needle : String) : Bool :=
  listIsPre needle.data.reverse hay.data.reverse

/-- Embedding of Python `s.startswith(p)`. -/
def strStartsWith (s p : String) : Bool := listIsPre p.data s.data

/-- Embedding of Python `s[n:]`: drop the first `n` characters. -/
def strDrop (s : String) (n : Nat) : String := String.mk (s.data.drop n)

/-! ## Filesystem model and `search_folder_recursively` (configuration.py) -/

/-- A directory listing, in `os.listdir` order: each node is either a regular
file entry or a sub-directory entry carrying its own listing. -/
inductive FSTree where
  | nil : FSTree
  | file (name : String) (rest : FSTree) : FSTree
  | dir (name : String) (contents : FSTree) (rest : FSTree) : FSTree
deriving DecidableEq, Repr

/-- Embedding of `os.path.join(main, elem)` for the relative names involved. -/
def pathJoin (main elem : String) : String := main ++ "/" ++ elem

/-- The loop body of `search_folder_recursively` (configuration.py lines
42-61): walk the listing of `main`; a regular file is appended to `notebooks`
when `elem.find(EXTENSION) != -1`; a sub-directory is appended to `folders`
when it is not hidden (`elem[0] != '.'`) and the recursive call on it returns
a non-empty notebook list. -/
def searchEntries (ext main : String) : FSTree → List String × List String
  | .nil => ([], [])
  | .file name rest =>
      let (nbs, fds) := searchEntries ext main rest
      if pyFind name ext ≠ -1 then (name :: nbs, fds) else (nbs, fds)
  | .dir name contents rest =>
      let (nbs, fds) := searchEntries ext main rest
      if name.front = '.' then (nbs, fds)
      else
        let (temp, _) := searchEntries ext (pathJoin main name) contents
        if temp.isEmpty then (nbs, fds) else (nbs, pathJoin main name :: fds)

/-- State of the path handed to `search_folder_recursively`: missing, an
existing regular file, or an existing directory with its listing. -/
inductive PathState where
  | missing : PathState
  | existingFile : PathState
  | existingDir (listing : FSTree) : PathState

/-- Embedding of `search_folder_recursively(logger, main)` (configuration.py
lines 34-65).  An existing directory is scanned by the loop; a missing path is
created by `os.mkdir` (flagged by the returned Boolean) with both lists empty;
a path that exists as a regular file makes `os.mkdir` raise `OSError`. -/
def search_folder_recursively (ext main : String) (st : PathState) :
    Except Unit ((List String × List String) × Bool) :=
  match st with
  | .existingDir listing => .ok (searchEntries ext main listing, false)
  | .missing => .ok (([], []), true)
  | .existingFile => .error ()

/-- Names of the regular files appearing directly in a listing whose name
contains `ext` as a substring (the code's `elem.find(EXTENSION) != -1` test). -/
def directMatchingFiles (ext : String) : FSTree → List String
  | .nil => []
  | .file name rest =>
      if pyFind name ext ≠ -1 then name :: directMatchingFiles ext rest
      else directMatchingFiles ext rest
  | .dir _ _ rest => directMatchingFiles ext rest

/-- Paths of the non-hidden immediate sub-directories of `main` that directly
contain at least one matching file. -/
def specFolders (ext main : String) : FSTree → List String
  | .nil => []
  | .file _ rest => specFolders ext main rest
  | .dir name contents rest =>
      if name.front ≠ '.' ∧ directMatchingFiles ext contents ≠ [] then
        pathJoin main name :: specFolders ext main rest
      else specFolders ext main rest

/-- Whether a listing has a direct regular-file entry called `name`. -/
def hasDirectFile (name : String) : FSTree → Bool
  | .nil => false
  | .file n rest => n = name || hasDirectFile name rest
  | .dir _ _ rest => hasDirectFile name rest

/-! ## Entry model, parser and emitter

Modelled from the spec: `text_processing.py` (the note-format parser, the
Markdown emitter and the tag filter engine, spec sections 4.2-4.4) is not
among the available sources, so these definitions follow the specification
text directly. -/

/-- Modelled from the spec: one journal post with a title, an ordered list of
tag labels and an ordered list of body lines (spec section 3). -/
structure Entry where
  title : String
  tags : List String
  body : List String
deriving DecidableEq, Repr

/-- A line consisting of one repeated single character (at least one). -/
def isRepeatedChar (u : String) : Bool :=
  match u.data with
  | [] => false
  | c :: rest => rest.all (fun d => d == c)

/-- The fixed lexical marker identifying a tag line (spec sections 4.2 and 8:
`Tags: work, urgent`). -/
def tagMarker : String := "Tags:"

/-- Tag separator characters: comma and whitespace (spec section 4.2). -/
def isTagSep (c : Char) : Bool := c == ',' || c == ' '

/-- Split a character list at separator characters, keeping (possibly empty)
groups. -/
def splitChars : List Char → List (List Char)
  | [] => [[]]
  | c :: rest =>
      let r := splitChars rest
      if isTagSep c then [] :: r
      else
        match r with
        | [] => [[c]]
        | g :: gs => (c :: g) :: gs

/-- Modelled from the spec: parse a tag line remainder into zero or more
comma/whitespace-separated tag labels (spec section 4.2). -/
def splitTags (s : String) : List String :=
  ((splitChars s.data).map (fun cs => String.mk cs)).filter (fun t => t != "")

/-- Split raw lines into blocks separated by one or more blank lines (spec
section 4.2). -/
def blocks : List String → List (List String)
  | [] => []
  | [l] => if l = "" then [] else [[l]]
  | l :: r :: rest =>
      if l = "" then blocks (r :: rest)
      else if r = "" then [l] :: blocks rest
      else
        match blocks (r :: rest) with
        | [] => [[l]]
        | b :: bs => (l :: b) :: bs

/-- Classification of a block: a new entry (first line followed by a matching
underline), plain content (no underline pattern), or malformed (an underline
line whose length mismatches the title line, spec section 4.2 edge case). -/
inductive BlockKind where
  | entry : BlockKind
  | plain : BlockKind
  | malformed : BlockKind
deriving DecidableEq, Repr

/-- Modelled from the spec: recognize a block (spec section 4.2). -/
def classify (b : List String) : BlockKind :=
  match b with
  | t :: u :: _ =>
      if isRepeatedChar u then
        if u.length = t.length then .entry else .malformed
      else .plain
  | _ => .plain

/-- Modelled from the spec: build the entry of an entry block: first line is
the title, the underline is dropped, an optional tag line directly after the
underline is parsed into labels, remaining block lines start the body. -/
def entryFromBlock (b : List String) : Entry :=
  match b with
  | t :: _ :: rest =>
      match rest with
      | [] => ⟨t, [], []⟩
      | l :: rest' =>
          if strStartsWith l tagMarker then
            ⟨t, splitTags (strDrop l tagMarker.length), rest'⟩
          else ⟨t, [], l :: rest'⟩
  | _ => ⟨"", [], []⟩

/-- Whether an entry block carries a tag line (third line starts with the
marker); used for the notebook-preamble rule (spec section 4.2). -/
def blockHasTagLine (b : List String) : Bool :=
  match b.drop 2 with
  | l :: _ => strStartsWith l tagMarker
  | [] => false

/-- Modelled from the spec: parse the blocks after the first recognized entry.
A block lacking the title/underline pattern attaches its lines to the body of
the preceding entry; a mismatched underline signals a SyntaxError (spec
section 4.2). -/
def parseRest (cur : Entry) : List (List String) → Except String (List Entry)
  | [] => .ok [cur]
  | b :: rest =>
      match classify b with
      | .entry =>
          match parseRest (entryFromBlock b) rest with
          | .ok es => .ok (cur :: es)
          | .error e => .error e
      | .plain => parseRest { cur with body := cur.body ++ b } rest
      | .malformed => .error "SyntaxError: title/underline length mismatch"

/-- Modelled from the spec: parse the leading blocks.  A leading block with no
tag line and no preceding entry (the notebook's own title/header, or plain
prose) is excluded from the returned entry sequence (spec section 4.2). -/
def parseBlocksL : List (List String) → Except String (List Entry)
  | [] => .ok []
  | b :: rest =>
      match classify b with
      | .entry =>
          if blockHasTagLine b then parseRest (entryFromBlock b) rest
          else parseBlocksL rest
      | .plain => parseBlocksL rest
      | .malformed => .error "SyntaxError: title/underline length mismatch"

/-- Modelled from the spec: `parse(raw_text) -> ordered sequence of Entry | SyntaxError`
over a text given as its list of lines (spec section 4.2). -/
def parse (ls : List String) : Except String (List Entry) :=
  parseBlocksL (blocks ls)

/-- Serialize a tag list for the tag line: labels joined by `", "`. -/
def joinTags : List String → String
  | [] => ""
  | [t] => t
  | t :: ts => t ++ ", " ++ joinTags ts

/-- The header lines of an emitted entry: title, underline sized to the title
length, and a tag line only if the tags are non-empty (spec section 4.4). -/
def headerBlock (e : Entry) : List String :=
  [e.title, String.mk (List.replicate e.title.length '-')]
    ++ (if e.tags.isEmpty then [] else [tagMarker ++ " " ++ joinTags e.tags])

/-- Modelled from the spec: emit one entry: header lines, a blank separator,
then the body lines (spec section 4.4). -/
def emitEntry (e : Entry) : List String :=
  headerBlock e ++ "" :: e.body

/-- Modelled from the spec: `emit(entries) -> text` as a list of lines, with a
blank line separating consecutive entries (spec section 4.4). -/
def emit : List Entry → List String
  | [] => []
  | [e] => emitEntry e
  | e :: rest => emitEntry e ++ "" :: emit rest

/-- The block decomposition an emitted entry produces: its header block,
followed by its body as one block when the body is non-empty. -/
def entryBlocks (e : Entry) : List (List String) :=
  headerBlock e :: (if e.body.isEmpty then [] else [e.body])

/-- Well-formedness of a tag label for round-tripping: non-empty and free of
the comma/space separator characters. -/
def wfTag (t : String) : Bool :=
  t != "" && t.data.all (fun c => !isTagSep c)

/-- A body that survives re-parsing as a single plain block: no blank lines
and no second line that is a repetition of a single character. -/
def bodyBlockSafe (body : List String) : Bool :=
  body.all (fun l => l != "") &&
    (match body with
     | _ :: u :: _ => !isRepeatedChar u
     | _ => true)

/-- Well-formedness of one entry for the round-trip property. -/
def wfEntry (e : Entry) : Bool :=
  e.title != "" && e.tags.all wfTag && bodyBlockSafe e.body

/-! ## Tag filter engine (spec section 4.3) -/

/-- Modelled from the spec: an entry survives when its tags are a superset of
the selected tags (AND semantics, spec section 4.3). -/
def survives (sel : List String) (e : Entry) : Bool :=
  sel.all (fun t => e.tags.contains t)

/-- Modelled from the spec: the surviving subset, in original order. -/
def survivingEntries (entries : List Entry) (sel : List String) : List Entry :=
  entries.filter (survives sel)

/-- Modelled from the spec: the tags appearing in at least one surviving
entry, first-seen order (the keys of the tag-cardinality map). -/
def remainingTagKeys (entries : List Entry) (sel : List String) : List String :=
  ((survivingEntries entries sel).flatMap Entry.tags).dedup

/-- Modelled from the spec: the tag-cardinality map over the surviving
entries (spec section 4.3). -/
def tagCardinalityMap (entries : List Entry) (sel : List String) :
    List (String × Nat) :=
  (remainingTagKeys entries sel).map
    (fun t => (t, (survivingEntries entries sel).countP (fun e => e.tags.contains t)))

/-! ## Preview tag-button state machine (frames.py, Preview) -/

/-- State of one Qt tag push button: `isFlat`, `isCheckable`, `isChecked`. -/
structure BtnState where
  flat : Bool
  checkable : Bool
  checked : Bool
deriving DecidableEq, Repr

/-- Embedding of `QAbstractButton.setCheckable`: changing checkability resets
the checked state; setting it to the current value is a no-op. -/
def qtSetCheckable (b : BtnState) (v : Bool) : BtnState :=
  if b.checkable == v then b else { b with checkable := v, checked := false }

/-- Embedding of a button click's toggle: a checkable button flips its checked
state before the `clicked` signal handlers run. -/
def qtToggle (b : BtnState) : BtnState :=
  if b.checkable then { b with checked := !b.checked } else b

/-- `Preview.enableButton` (frames.py lines 717-720): `setFlat(False)`,
`setCheckable(True)`. -/
def enableButton (b : BtnState) : BtnState :=
  qtSetCheckable { b with flat := false } true

/-- `Preview.disableButton` (frames.py lines 712-715): `setFlat(True)`,
`setCheckable(False)`. -/
def disableButton (b : BtnState) : BtnState :=
  qtSetCheckable { b with flat := true } false

/-- The Preview widget state relevant to filtering: the labelled tag buttons
(`self.tagButtons`) and the accumulated filter list (`self.filters`). -/
structure PreviewUI where
  tagButtons : List (String × BtnState)
  filters : List String
deriving DecidableEq, Repr

/-- Embedding of `self.filters.pop(self.filters.index(x))`: remove the first
occurrence of `x`. -/
def removeFirst (x : String) : List String → List String
  | [] => []
  | y :: ys => if y = x then ys else y :: removeFirst x ys

/-- The button update loop of `Preview.addFilter` / `Preview.reload`
(frames.py lines 597-601 and 747-751): every tag button whose key is in the
remaining-tags map is enabled, every other one is disabled. -/
def updateButtons (buttons : List (String × BtnState)) (remaining : List String) :
    List (String × BtnState) :=
  buttons.map (fun kb =>
    if kb.1 ∈ remaining then (kb.1, enableButton kb.2) else (kb.1, disableButton kb.2))

/-- One click on tag button `i` as handled by `Preview.addFilter` (frames.py
lines 574-602): Qt toggles the checkable button, then, if the sender is not
flat, its label is appended to or removed from `self.filters`, the notebook is
re-converted with the new filter list, and all buttons are enabled or disabled
according to the remaining-tags map. -/
def addFilterClick (entries : List Entry) (st : PreviewUI) (i : Nat) : PreviewUI :=
  match st.tagButtons.get? i with
  | none => st
  | some (key, b) =>
      let b' := qtToggle b
      let buttons1 := st.tagButtons.set i (key, b')
      if b'.flat then { st with tagButtons := buttons1 }
      else
        let filters' :=
          if b'.checked then st.filters ++ [key] else removeFirst key st.filters
        let remaining := (tagCardinalityMap entries filters').map Prod.fst
        { tagButtons := updateButtons buttons1 remaining, filters := filters' }

/-- A sequence of tag-button clicks. -/
def clickSeq (entries : List Entry) (st : PreviewUI) (clicks : List Nat) : PreviewUI :=
  clicks.foldl (addFilterClick entries) st

/-- The tag buttons as created by `Preview.initUI` (frames.py lines 536-546):
one per extracted tag, not flat, checkable, unchecked. -/
def initButtons (extracted : List String) : List (String × BtnState) :=
  extracted.map (fun k => (k, ⟨false, true, false⟩))

/-- The Preview state right after `Preview.initLogic` and `Preview.initUI`:
fresh buttons and an empty filter list (frames.py lines 477-478). -/
def initPreview (extracted : List String) : PreviewUI :=
  ⟨initButtons extracted, []⟩

/-- The invariant tying `Preview`'s accumulated filter list to its tag-button
states: distinct button labels, flatness mirroring non-checkability, checked
buttons enabled, a duplicate-free filter list that matches exactly the checked
buttons' labels, and every enabled button witnessed by a surviving entry. -/
structure FilterInv (entries : List Entry) (st : PreviewUI) : Prop where
  nodupKeys : (st.tagButtons.map Prod.fst).Nodup
  flatIff : ∀ kb ∈ st.tagButtons, kb.2.flat = !kb.2.checkable
  checkedEnabled : ∀ kb ∈ st.tagButtons, kb.2.checked = true → kb.2.flat = false
  nodupFilters : st.filters.Nodup
  checkedIff : ∀ kb ∈ st.tagButtons, (kb.2.checked = true ↔ kb.1 ∈ st.filters)
  filtersSub : ∀ t ∈ st.filters, t ∈ st.tagButtons.map Prod.fst
  enabledWitness : ∀ kb ∈ st.tagButtons, kb.2.flat = false →
    ∃ e ∈ entries, survives st.filters e = true ∧ kb.1 ∈ e.tags

/-! ## `Preview.loadNotebook` (frames.py lines 607-632) -/

/-- The two failures `Preview.loadNotebook` catches from `Preview.convert`. -/
inductive ConvError where
  | valueError : ConvError
  | syntaxErr : ConvError
deriving DecidableEq, Repr

/-- The Preview state touched by `loadNotebook`: the stored extracted tags,
the filter list, the current notebook reference, and the displayed page. -/
structure PreviewState where
  extracted_tags : List (String × Nat)
  filters : List String
  current_notebook : String
  page : Option String
deriving DecidableEq, Repr

/-- `Preview.initLogic` (frames.py lines 463-478) as it acts on this state:
`self.extracted_tags = od()` and `self.filters = []`. -/
def initLogicState (st : PreviewState) : PreviewState :=
  { st with extracted_tags := [], filters := [] }

/-- `Preview.loadNotebook(notebook)` (frames.py lines 607-632): `initLogic`
runs first, `info.current_notebook` is set, then the conversion is attempted;
on `ValueError` or `SyntaxError` the method returns `False`, otherwise the
tags are stored, the page is set and it returns `True`.  The conversion
outcome is passed in explicitly. -/
def loadNotebook (st : PreviewState) (notebook : String)
    (conv : Except ConvError (String × List (String × Nat))) : Bool × PreviewState :=
  let st1 := { initLogicState st with current_notebook := notebook }
  match conv with
  | .error _ => (false, st1)
  | .ok (url, tags) => (true, { st1 with extracted_tags := tags, page := some url })

/-! ## Line-ending normalization in `Preview.convert` (frames.py line 703) -/

/-- Embedding of Python `html.replace('\r\n', '\n')`: one left-to-right pass
replacing non-overlapping occurrences. -/
def pyReplaceCRLF : List Char → List Char
  | [] => []
  | [c] => [c]
  | c :: d :: rest =>
      if c = '\r' ∧ d = '\n' then '\n' :: pyReplaceCRLF rest
      else c :: pyReplaceCRLF (d :: rest)

/-- The normalization `Preview.convert` applies to the html text before
writing it (frames.py line 703). -/
def normalizeHtml (s : String) : String := String.mk (pyReplaceCRLF s.data)

/-- Inputs whose every carriage return is immediately followed by a newline
(pure CRLF line endings). -/
def crlfOnly : List Char → Bool
  | [] => true
  | [c] => c != '\r'
  | c :: d :: rest =>
      if c = '\r' then (if d = '\n' then crlfOnly rest else false)
      else crlfOnly (d :: rest)

/-! ## `Shelves.createNotebook` (frames.py lines 825-840) -/

/-- The formal parameter count of `def search_folder_recursively(logger, main)`
(configuration.py line 34): two positional parameters, no defaults, no
varargs. -/
def search_folder_recursively_paramCount : Nat := 2

/-- Binding positional arguments to a Python function with exactly
`paramCount` positional parameters and no defaults: any other argument count
raises `TypeError`. -/
def pyBindPositional (paramCount nargs : Nat) : Except String Unit :=
  if nargs = paramCount then .ok () else .error "TypeError"

/-- Argument count of the call in `Shelves.createFolder` (frames.py lines
859-860): `(self.log, folder_path, self.info.display_empty)`. -/
def createFolder_search_nargs : Nat := 3

/-- Argument count of the call in `Shelves.toggleDisplayEmpty` (frames.py
lines 869-870). -/
def toggleDisplayEmpty_search_nargs : Nat := 3

/-- Argument count of the call in `Shelves.folderClicked` (frames.py lines
945-946). -/
def folderClicked_search_nargs : Nat := 3

/-- Argument count of the call in `Shelves.upFolder` (frames.py lines
954-955). -/
def upFolder_search_nargs : Nat := 3

/-! ## `Shelves.removeNotebook` (frames.py lines 876-903) -/

/-- The user's answer to the confirmation dialog. -/
inductive UserReply where
  | yes : UserReply
  | no : UserReply
deriving DecidableEq, Repr

/-- Removal of a path from the on-disk file table (`os.remove`). -/
def removeKey (k : String) : List (String × Nat) → List (String × Nat)
  | [] => []
  | (k', v) :: rest => if k' = k then rest else (k', v) :: removeKey k rest

/-- The information store slice `removeNotebook` mutates. -/
structure ShelfInfo where
  notebooks : List String
deriving DecidableEq, Repr

/-- `Shelves.removeNotebook(notebook)` (frames.py lines 876-903).  `files`
maps existing paths to `os.stat(...).st_size`.  A non-empty file pops the
confirmation dialog (the returned Boolean); an empty file sets the reply to
Yes directly.  On Yes the file is removed and the notebook name is popped
from `info.notebooks`; on No nothing changes.  A missing file (`os.stat`) or
an absent list entry (`list.index`) raises. -/
def removeNotebook (level : String) (files : List (String × Nat)) (info : ShelfInfo)
    (notebook ext : String) (reply : UserReply) :
    Except Unit (Bool × (List (String × Nat) × ShelfInfo)) :=
  let path := pathJoin level (notebook ++ ext)
  match files.lookup path with
  | none => .error ()
  | some size =>
      let asked := size != 0
      let r := if asked then reply else .yes
      if r = .yes then
        if (notebook ++ ext) ∈ info.notebooks then
          .ok (asked, (removeKey path files,
            ⟨removeFirst (notebook ++ ext) info.notebooks⟩))
        else .error ()
      else .ok (asked, (files, info))

/-! ## Supporting lemmas: strings -/

theorem listIsPre_iff (p l : List Char) :
    listIsPre p l = true ↔ ∃ r, l = p ++ r := by
  induction p generalizing l with
  | nil => simp [listIsPre]
  | cons a as ih =>
    cases l with
    | nil => simp [listIsPre]
    | cons b bs =>
      simp only [listIsPre, Bool.and_eq_true, decide_eq_true_eq, ih, List.cons_append,
        List.cons.injEq]
      constructor
      · rintro ⟨rfl, r, rfl⟩; exact ⟨r, rfl, rfl⟩
      · rintro ⟨r, rfl, rfl⟩; exact ⟨rfl, r, rfl⟩

theorem pyFindAux_isSome_iff (needle hay : List Char) :
    (pyFindAux needle hay).isSome = true ↔ ∃ l r, hay = l ++ needle ++ r := by
  induction hay with
  | nil =>
    by_cases h : listIsPre needle [] = true
    · rw [listIsPre_iff] at h
      obtain ⟨r, hr⟩ := h
      rcases List.append_eq_nil.mp hr.symm with ⟨h1, h2⟩
      subst h1
      simp [pyFindAux, listIsPre]
    · simp only [pyFindAux]
      rw [if_neg h]
      simp only [Option.isSome_none, Bool.false_eq_true, false_iff]
      rintro ⟨l, r, hlr⟩
      rcases List.append_eq_nil.mp (List.append_eq_nil.mp hlr.symm).1 with ⟨-, h2⟩
      exact h (by rw [listIsPre_iff]; exact ⟨[], by simp [h2]⟩)
  | cons c rest ih =>
    by_cases h : listIsPre needle (c :: rest) = true
    · rw [listIsPre_iff] at h
      obtain ⟨r, hr⟩ := h
      simp only [pyFindAux]
      rw [if_pos (by rw [listIsPre_iff]; exact ⟨r, hr⟩)]
      simp only [Option.isSome_some, true_iff]
      exact ⟨[], r, by simpa using hr⟩
    · simp only [pyFindAux]
      rw [if_neg h]
      have hmap : ((pyFindAux needle rest).map (· + 1)).isSome =
          (pyFindAux needle rest).isSome := by
        rcases pyFindAux needle rest <;> simp
      rw [hmap, ih]
      constructor
      · rintro ⟨l, r, rfl⟩
        exact ⟨c :: l, r, by simp⟩
      · rintro ⟨l, r, hlr⟩
        cases l with
        | nil =>
          exact absurd (by rw [listIsPre_iff]; exact ⟨r, by simpa using hlr⟩) h
        | cons x xs =>
          simp only [List.cons_append, List.cons.injEq] at hlr
          exact ⟨xs, r, hlr.2⟩

theorem pyFind_ne_neg_one_iff (hay needle : String) :
    pyFind hay needle ≠ -1 ↔ ∃ l r, hay.data = l ++ needle.data ++ r := by
  rw [← pyFindAux_isSome_iff needle.data hay.data]
  unfold pyFind
  rcases h : pyFindAux needle.data hay.data with _ | i <;> simp [h]

/-! ## Supporting lemmas: folder search -/

theorem searchEntries_fst (ext main : String) (t : FSTree) :
    (searchEntries ext main t).1 = directMatchingFiles ext t := by
  induction t with
  | nil => rfl
  | file name rest ih =>
    simp only [searchEntries, directMatchingFiles]
    split <;> simp [ih]
  | dir name contents rest ihc ihr =>
    simp only [searchEntries, directMatchingFiles]
    split
    · exact ihr
    · split <;> exact ihr

theorem searchEntries_snd (ext main : String) (t : FSTree) :
    (searchEntries ext main t).2 = specFolders ext main t := by
  induction t with
  | nil => rfl
  | file name rest ih =>
    simp only [searchEntries, specFolders]
    split <;> simp [ih]
  | dir name contents rest ihc ihr =>
    simp only [searchEntries, specFolders]
    by_cases hhid : name.front = '.'
    · rw [if_pos hhid, if_neg (by simp [hhid])]
      exact ihr
    · rw [if_neg hhid]
      by_cases hne : (searchEntries ext (pathJoin main name) contents).1.isEmpty = true
      · rw [if_pos hne]
        have hdm : directMatchingFiles ext contents = [] := by
          rw [← searchEntries_fst ext (pathJoin main name) contents]
          exact List.isEmpty_iff.mp hne
        rw [if_neg (by simp [hdm])]
        exact ihr
      · rw [if_neg hne]
        have hdm : directMatchingFiles ext contents ≠ [] := by
          rw [← searchEntries_fst ext (pathJoin main name) contents]
          exact fun h => hne (by simp [h, List.isEmpty_iff])
        rw [if_pos ⟨hhid, hdm⟩, ihr]

/-! ## Claim C9 -/

/-- Claim C9: for an existing directory, `search_folder_recursively` returns
as notebooks exactly the names of the regular files directly inside it whose
name matches the extension test, and as folders exactly the paths of its
non-hidden immediate sub-directories directly containing at least one such
file (deeper notebooks are never listed); for a missing path it creates the
directory and returns two empty lists. -/
theorem search_folder_recursively_characterisation (ext main : String) (listing : FSTree) :
    search_folder_recursively ext main (.existingDir listing) =
        .ok ((directMatchingFiles ext listing, specFolders ext main listing), false)
      ∧ search_folder_recursively ext main .missing = .ok (([], []), true) := by
  refine ⟨?_, rfl⟩
  have hres : searchEntries ext main listing
      = (directMatchingFiles ext listing, specFolders ext main listing) :=
    Prod.ext (searchEntries_fst ext main listing) (searchEntries_snd ext main listing)
  simp [search_folder_recursively, hres]

/-! ## Claim C2 -/

/-- Claim C2 counterexample: the scan includes `a.md.bak` for extension
`.md` although the name does not end with the extension — the code's test is
`elem.find(EXTENSION) != -1` (substring containment), not a suffix test. -/
theorem notebook_extension_counterexample :
    searchEntries ".md" "/root/.noteorganiser" (.file "a.md.bak" .nil)
        = (["a.md.bak"], [])
      ∧ pyEndsWith "a.md.bak" ".md" = false := by
  constructor
  · rfl
  · rfl

/-- Claim C2 amended: a file name is included in the notebooks list returned
for a scanned directory exactly when the directory has a direct regular-file
entry of that name and the name CONTAINS the configured extension as a
substring (not necessarily as a suffix). -/
theorem searchEntries_notebooks_mem (ext main name : String) (t : FSTree) :
    name ∈ (searchEntries ext main t).1 ↔
      hasDirectFile name t = true ∧ ∃ l r, name.data = l ++ ext.data ++ r := by
  rw [searchEntries_fst, ← pyFind_ne_neg_one_iff]
  induction t with
  | nil => simp [directMatchingFiles, hasDirectFile]
  | file n rest ih =>
    simp only [directMatchingFiles, hasDirectFile, Bool.or_eq_true, decide_eq_true_eq]
    by_cases h : pyFind n ext ≠ -1
    · rw [if_pos h]
      simp only [List.mem_cons, ih]
      constructor
      · rintro (rfl | ⟨hd, hf⟩)
        exacts [⟨Or.inl rfl, h⟩, ⟨Or.inr hd, hf⟩]
      · rintro ⟨rfl | hd, hf⟩
        exacts [Or.inl rfl, Or.inr ⟨hd, hf⟩]
    · rw [if_neg h]
      rw [ih]
      constructor
      · rintro ⟨hd, hf⟩
        exact ⟨Or.inr hd, hf⟩
      · rintro ⟨rfl | hd, hf⟩
        exacts [absurd hf h, ⟨hd, hf⟩]
  | dir n contents rest ihc ihr =>
    simp only [directMatchingFiles, hasDirectFile]
    exact ihr

/-! ## Claim C8 -/

/-- Claim C8: `search_folder_recursively` takes exactly two positional
parameters, but the calls in `Shelves.createFolder`, `Shelves.toggleDisplayEmpty`,
`Shelves.folderClicked` and `Shelves.upFolder` each pass three positional
arguments, so every one of these calls raises `TypeError` instead of
returning a `(notebooks, folders)` pair. -/
theorem search_folder_call_sites_arity :
    pyBindPositional search_folder_recursively_paramCount createFolder_search_nargs
        = .error "TypeError"
      ∧ pyBindPositional search_folder_recursively_paramCount toggleDisplayEmpty_search_nargs
        = .error "TypeError"
      ∧ pyBindPositional search_folder_recursively_paramCount folderClicked_search_nargs
        = .error "TypeError"
      ∧ pyBindPositional search_folder_recursively_paramCount upFolder_search_nargs
        = .error "TypeError" :=
  ⟨rfl, rfl, rfl, rfl⟩

/-! ## Claim C5 -/

/-- Claim C5 counterexample: a lone carriage return (not part of a CRLF pair)
survives the normalization `html.replace('\r\n', '\n')` unchanged, so the
output is not free of alternative line-ending characters for every input. -/
theorem normalizeHtml_counterexample :
    normalizeHtml "a\rb" = "a\rb" ∧ '\r' ∈ (normalizeHtml "a\rb").data := by
  constructor
  · rfl
  · decide

theorem pyReplaceCRLF_no_cr : ∀ cs : List Char, crlfOnly cs = true →
    '\r' ∉ pyReplaceCRLF cs := by
  intro cs
  induction cs using pyReplaceCRLF.induct with
  | case1 =>
    intro h
    simp [pyReplaceCRLF]
  | case2 c =>
    intro h
    simp only [crlfOnly, bne_iff_ne, ne_eq, decide_eq_true_eq] at h
    simp only [pyReplaceCRLF, List.mem_singleton]
    exact fun hEq => h hEq.symm
  | case3 c d rest hcd ih =>
    obtain ⟨rfl, rfl⟩ := hcd
    intro h
    have hrest : crlfOnly rest = true := by
      simpa only [crlfOnly, if_pos rfl, if_true] using h
    have hstep : pyReplaceCRLF ('\r' :: '\n' :: rest) = '\n' :: pyReplaceCRLF rest := by
      simp [pyReplaceCRLF]
    rw [hstep]
    simp only [List.mem_cons]
    rintro (h1 | h2)
    · exact absurd h1 (by decide)
    · exact ih hrest h2
  | case4 c d rest hcd ih =>
    intro h
    have hc : c ≠ '\r' := by
      intro hEq
      subst hEq
      by_cases hd : d = '\n'
      · exact hcd ⟨rfl, hd⟩
      · rw [show crlfOnly ('\r' :: d :: rest) = false by
            simp [crlfOnly, hd]] at h
        exact absurd h (by decide)
    have hrest : crlfOnly (d :: rest) = true := by
      rw [show crlfOnly (c :: d :: rest) = crlfOnly (d :: rest) by
          simp only [crlfOnly, if_neg hc]] at h
      exact h
    simp only [pyReplaceCRLF, if_neg hcd, List.mem_cons]
    rintro (h1 | h2)
    · exact hc h1.symm
    · exact ih hrest h2

/-- Claim C5 amended: when every carriage return in the input occurs as part
of a CRLF pair, the normalized output contains no carriage return at all; a
lone carriage return, however, is preserved (see the counterexample). -/
theorem normalizeHtml_no_cr (s : String) (h : crlfOnly s.data = true) :
    '\r' ∉ (normalizeHtml s).data :=
  pyReplaceCRLF_no_cr s.data h

/-- Witness for the amended claim C5 at the concrete input `"a\r\nb"`. -/
theorem normalizeHtml_no_cr_witness :
    crlfOnly ("a\r\nb").data = true ∧ '\r' ∉ (normalizeHtml "a\r\nb").data :=
  ⟨by decide, normalizeHtml_no_cr "a\r\nb" (by decide)⟩

/-! ## Claim C6 -/

theorem string_mk_length (cs : List Char) : (String.mk cs).length = cs.length := rfl

theorem string_eq_empty_of_data_eq_nil (s : String) (h : s.data = []) : s = "" := by
  cases s with
  | mk d =>
    have hd : d = [] := h
    subst hd
    rfl

theorem isRepeatedChar_replicate (n : Nat) (c : Char) (hn : n ≠ 0) :
    isRepeatedChar (String.mk (List.replicate n c)) = true := by
  unfold isRepeatedChar
  cases n with
  | zero => exact absurd rfl hn
  | succ m =>
    rw [List.replicate_succ]
    simp only [List.all_eq_true]
    intro d hd
    rw [List.eq_of_mem_replicate hd]
    simp

/-- Claim C3 counterexample: when the conversion fails, `Preview.loadNotebook`
does return `False`, but the stored `extracted_tags` are NOT left unchanged:
`initLogic` has already reset them to an empty map before the conversion was
attempted. -/
theorem loadNotebook_failure_counterexample :
    (loadNotebook ⟨[("work", 1)], ["work"], "old.md", some "old.html"⟩ "new.md"
        (.error .valueError)).1 = false
      ∧ (loadNotebook ⟨[("work", 1)], ["work"], "old.md", some "old.html"⟩ "new.md"
        (.error .valueError)).2.extracted_tags ≠ [("work", 1)] :=
  ⟨rfl, by decide⟩

/-- Claim C3 amended: if the conversion fails (`ValueError` or `SyntaxError`),
`Preview.loadNotebook` returns `False` and leaves the displayed page
unchanged — no partial result is substituted — but `extracted_tags` has
already been reset to empty by the unconditional `initLogic` call, and
`info.current_notebook` has already been updated. -/
theorem loadNotebook_failure (st : PreviewState) (notebook : String) (err : ConvError) :
    (loadNotebook st notebook (.error err)).1 = false
      ∧ (loadNotebook st notebook (.error err)).2.page = st.page
      ∧ (loadNotebook st notebook (.error err)).2.extracted_tags = []
      ∧ (loadNotebook st notebook (.error err)).2.filters = []
      ∧ (loadNotebook st notebook (.error err)).2.current_notebook = notebook :=
  ⟨rfl, rfl, rfl, rfl, rfl⟩

/-! ## Claim C10 -/

theorem lookup_eq_none_of_not_mem_keys (k : String) (l : List (String × Nat))
    (h : k ∉ l.map Prod.fst) : l.lookup k = none := by
  induction l with
  | nil => rfl
  | cons kv rest ih =>
    obtain ⟨k', v⟩ := kv
    simp only [List.map_cons, List.mem_cons, not_or] at h
    have hbeq : (k == k') = false := by
      simp only [beq_eq_false_iff_ne, ne_eq]
      exact h.1
    simp [List.lookup, hbeq, ih h.2]

theorem lookup_removeKey_self (k : String) (files : List (String × Nat))
    (hnd : (files.map Prod.fst).Nodup) : (removeKey k files).lookup k = none := by
  induction files with
  | nil => rfl
  | cons kv rest ih =>
    obtain ⟨k', v⟩ := kv
    simp only [List.map_cons, List.nodup_cons] at hnd
    by_cases h : k' = k
    · subst h
      simp only [removeKey, if_pos rfl]
      exact lookup_eq_none_of_not_mem_keys _ _ hnd.1
    · simp only [removeKey, if_neg h]
      have hbeq : (k == k') = false := by
        simp only [beq_eq_false_iff_ne, ne_eq]
        exact fun hEq => h hEq.symm
      simp [List.lookup, hbeq, ih hnd.2]

theorem not_mem_removeFirst_self (x : String) (l : List String) (hnd : l.Nodup) :
    x ∉ removeFirst x l := by
  induction l with
  | nil => simp [removeFirst]
  | cons y ys ih =>
    simp only [List.nodup_cons] at hnd
    by_cases h : y = x
    · subst h
      simp only [removeFirst, if_pos rfl]
      exact hnd.1
    · simp only [removeFirst, if_neg h, List.mem_cons]
      rintro (rfl | hm)
      · exact h rfl
      · exact ih hnd.2 hm

/-- Claim C10: `Shelves.removeNotebook` asks the user for confirmation exactly
when the notebook file's size is non-zero (the returned Boolean); when the
deletion proceeds (empty file, or the user confirms) the file is removed from
disk and the notebook's entry is removed from `info.notebooks`; when the user
declines, neither the file table nor `info.notebooks` changes. -/
theorem removeNotebook_spec (level : String) (files : List (String × Nat))
    (info : ShelfInfo) (notebook ext : String) (reply : UserReply) (size : Nat)
    (hstat : files.lookup (pathJoin level (notebook ++ ext)) = some size)
    (hmem : (notebook ++ ext) ∈ info.notebooks)
    (hfnd : (files.map Prod.fst).Nodup) (hnnd : info.notebooks.Nodup) :
    (size ≠ 0 →
        removeNotebook level files info notebook ext .no = .ok (true, (files, info)))
      ∧ ((size = 0 ∨ reply = .yes) →
          ∃ files' notebooks',
            removeNotebook level files info notebook ext reply
                = .ok (size != 0, (files', ⟨notebooks'⟩))
              ∧ files'.lookup (pathJoin level (notebook ++ ext)) = none
              ∧ (notebook ++ ext) ∉ notebooks') := by
  constructor
  · intro hsz
    have h1 : (size != 0) = true := by simpa using hsz
    simp only [removeNotebook, hstat, h1]
    simp
  · intro hprc
    refine ⟨removeKey (pathJoin level (notebook ++ ext)) files,
            removeFirst (notebook ++ ext) info.notebooks, ?_,
            lookup_removeKey_self _ _ hfnd, not_mem_removeFirst_self _ _ hnnd⟩
    rcases hprc with hsz | hrep
    · have h0 : (size != 0) = false := by simp [hsz]
      simp only [removeNotebook, hstat, h0]
      simp [hmem]
    · subst hrep
      by_cases hsz : size = 0
      · have h0 : (size != 0) = false := by simp [hsz]
        simp only [removeNotebook, hstat, h0]
        simp [hmem]
      · have h1 : (size != 0) = true := by simpa using hsz
        simp only [removeNotebook, hstat, h1]
        simp [hmem]

/-- Witness for claim C10 at a concrete one-file shelf. -/
theorem removeNotebook_spec_witness :
    (((5 : Nat) ≠ 0 →
        removeNotebook "/root" [("/root/nb.md", 5)] ⟨["nb.md"]⟩ "nb" ".md" .no
          = .ok (true, ([("/root/nb.md", 5)], ⟨["nb.md"]⟩)))
      ∧ (((5 : Nat) = 0 ∨ UserReply.yes = .yes) →
          ∃ files' notebooks',
            removeNotebook "/root" [("/root/nb.md", 5)] ⟨["nb.md"]⟩ "nb" ".md" .yes
                = .ok ((5 : Nat) != 0, (files', ⟨notebooks'⟩))
              ∧ files'.lookup (pathJoin "/root" ("nb" ++ ".md")) = none
              ∧ ("nb" ++ ".md") ∉ notebooks')) :=
  removeNotebook_spec "/root" [("/root/nb.md", 5)] ⟨["nb.md"]⟩ "nb" ".md" .yes 5
    (by decide) (by decide) (by decide) (by decide)

/-! ## Claim C1: supporting lemmas on strings and blocks -/

theorem string_append_data (a b : String) : (a ++ b).data = a.data ++ b.data := rfl

theorem string_mk_data (cs : List Char) : (String.mk cs).data = cs := rfl

theorem string_mk_data_eq (s : String) : String.mk s.data = s := by
  cases s
  rfl

theorem string_ne_empty_of_data_ne_nil (s : String) (h : s.data ≠ []) : s ≠ "" := by
  intro hEq
  subst hEq
  exact h rfl

theorem blocks_blank_cons (rest : List String) : blocks ("" :: rest) = blocks rest := by
  cases rest with
  | nil => simp [blocks]
  | cons r rs => simp [blocks]

theorem blocks_shape : ∀ (rest : List String) (l : String), l ≠ "" →
    ∃ tl bs, blocks (l :: rest) = (l :: tl) :: bs := by
  intro rest
  induction rest with
  | nil =>
    intro l h
    exact ⟨[], [], by simp [blocks, h]⟩
  | cons r rs ih =>
    intro l h
    by_cases hr : r = ""
    · subst hr
      exact ⟨[], blocks rs, by simp [blocks, h]⟩
    · obtain ⟨tl, bs, hb⟩ := ih r hr
      refine ⟨r :: tl, bs, ?_⟩
      simp only [blocks, if_neg h, if_neg hr, hb]

theorem blocks_append : ∀ (xs ys : List String),
    blocks (xs ++ "" :: ys) = blocks xs ++ blocks ys := by
  intro xs
  induction xs with
  | nil =>
    intro ys
    rw [List.nil_append, blocks_blank_cons]
    rfl
  | cons l xs' ih =>
    intro ys
    by_cases h : l = ""
    · subst h
      rw [List.cons_append, blocks_blank_cons, blocks_blank_cons, ih]
    · cases xs' with
      | nil =>
        simp [blocks, h]
      | cons r xs'' =>
        by_cases hr : r = ""
        · subst hr
          have ih' : blocks (xs'' ++ "" :: ys) = blocks xs'' ++ blocks ys := by
            have hthis := ih ys
            rw [List.cons_append, blocks_blank_cons, blocks_blank_cons] at hthis
            exact hthis
          rw [List.cons_append, List.cons_append]
          rw [show blocks (l :: "" :: (xs'' ++ "" :: ys))
              = [l] :: blocks (xs'' ++ "" :: ys) by simp [blocks, h]]
          rw [show blocks (l :: "" :: xs'') = [l] :: blocks xs'' by simp [blocks, h]]
          rw [ih']
          rfl
        · obtain ⟨tl, bs, hb⟩ := blocks_shape xs'' r hr
          have ihy := ih ys
          rw [List.cons_append, hb] at ihy
          rw [List.cons_append, List.cons_append]
          rw [show blocks (l :: r :: (xs'' ++ "" :: ys))
              = (l :: r :: tl) :: (bs ++ blocks ys) by
            simp only [blocks, if_neg h, if_neg hr, ihy, List.cons_append]]
          rw [show blocks (l :: r :: xs'') = (l :: r :: tl) :: bs by
            simp only [blocks, if_neg h, if_neg hr, hb]]
          rfl

theorem blocks_noblank : ∀ (xs : List String), xs ≠ [] →
    (∀ x ∈ xs, x ≠ "") → blocks xs = [xs] := by
  intro xs
  induction xs with
  | nil => intro h; exact absurd rfl h
  | cons l xs' ih =>
    intro _ hnb
    have hl : l ≠ "" := hnb l (by simp)
    cases xs' with
    | nil => simp [blocks, hl]
    | cons r xs'' =>
      have hr : r ≠ "" := hnb r (by simp)
      have ih' : blocks (r :: xs'') = [r :: xs''] :=
        ih (by simp) (fun x hx => hnb x (List.mem_cons_of_mem _ hx))
      simp only [blocks, if_neg hl, if_neg hr, ih']

/-! ## Claim C1: supporting lemmas on tag splitting -/

theorem splitChars_nosep : ∀ (cs : List Char), (∀ c ∈ cs, isTagSep c = false) →
    splitChars cs = [cs] := by
  intro cs
  induction cs with
  | nil => intro _; rfl
  | cons c cs' ih =>
    intro h
    have hc : isTagSep c = false := h c (by simp)
    have ih' := ih (fun d hd => h d (by simp [hd]))
    simp only [splitChars, hc, ih']
    simp

theorem splitChars_append_sep : ∀ (xs : List Char), (∀ c ∈ xs, isTagSep c = false) →
    ∀ (s : Char), isTagSep s = true → ∀ ys,
      splitChars (xs ++ s :: ys) = xs :: splitChars ys := by
  intro xs
  induction xs with
  | nil =>
    intro _ s hs ys
    simp [splitChars, hs]
  | cons c xs' ih =>
    intro h s hs ys
    have hc : isTagSep c = false := h c (by simp)
    have ih' := ih (fun d hd => h d (by simp [hd])) s hs ys
    have hred : splitChars (c :: (xs' ++ s :: ys)) =
        match splitChars (xs' ++ s :: ys) with
        | [] => [[c]]
        | g :: gs => (c :: g) :: gs := by
      simp [splitChars, hc]
    rw [List.cons_append, hred, ih']

theorem wfTag_spec (t : String) (h : wfTag t = true) :
    t.data ≠ [] ∧ ∀ c ∈ t.data, isTagSep c = false := by
  unfold wfTag at h
  rw [Bool.and_eq_true] at h
  constructor
  · intro hd
    have hte : t = "" := string_eq_empty_of_data_eq_nil t hd
    subst hte
    simp at h
  · intro c hc
    have := List.all_eq_true.mp h.2 c hc
    simpa using this

theorem splitTags_of_join : ∀ (ts : List String), ts ≠ [] →
    (∀ t ∈ ts, wfTag t = true) →
    ((splitChars (joinTags ts).data).map (fun cs => String.mk cs)).filter
      (fun t => t != "") = ts := by
  intro ts
  induction ts with
  | nil => intro h; exact absurd rfl h
  | cons t ts' ih =>
    intro _ hwf
    have hwt := wfTag_spec t (hwf t (by simp))
    have htne : (t != "") = true := by
      simp only [bne_iff_ne, ne_eq]
      exact string_ne_empty_of_data_ne_nil t hwt.1
    cases ts' with
    | nil =>
      rw [show joinTags [t] = t from rfl]
      rw [splitChars_nosep t.data hwt.2]
      simp [string_mk_data_eq, htne]
    | cons t2 ts'' =>
      have hdata : (joinTags (t :: t2 :: ts'')).data
          = t.data ++ ',' :: ' ' :: (joinTags (t2 :: ts'')).data := by
        rw [show joinTags (t :: t2 :: ts'') = t ++ ", " ++ joinTags (t2 :: ts'') from rfl]
        rw [string_append_data, string_append_data]
        simp [List.append_assoc]
      rw [hdata]
      rw [splitChars_append_sep t.data hwt.2 ',' (by decide) _]
      rw [show splitChars (' ' :: (joinTags (t2 :: ts'')).data)
          = [] :: splitChars (joinTags (t2 :: ts'')).data by
        simp [splitChars, isTagSep]]
      have ih' := ih (by simp) (fun x hx => hwf x (List.mem_cons_of_mem _ hx))
      have h0 : ((String.mk [] : String) != "") = false := by decide
      simp only [List.map_cons, List.filter_cons]
      rw [string_mk_data_eq]
      simp [htne, h0, ih']

/-! ## Claim C1: supporting lemmas on emitted blocks -/

theorem wfEntry_spec (e : Entry) (h : wfEntry e = true) :
    e.title ≠ "" ∧ (∀ t ∈ e.tags, wfTag t = true) ∧ bodyBlockSafe e.body = true := by
  unfold wfEntry at h
  rw [Bool.and_eq_true, Bool.and_eq_true] at h
  refine ⟨?_, ?_, h.2⟩
  · have h11 := h.1.1
    simpa [bne_iff_ne] using h11
  · exact fun t ht => List.all_eq_true.mp h.1.2 t ht

theorem headerBlock_cons (e : Entry) :
    headerBlock e = e.title :: String.mk (List.replicate e.title.length '-') ::
      (if e.tags.isEmpty then [] else [tagMarker ++ " " ++ joinTags e.tags]) := rfl

theorem title_length_pos (e : Entry) (h : e.title ≠ "") : e.title.length ≠ 0 := by
  intro h0
  have h0' : e.title.data.length = 0 := h0
  exact h (string_eq_empty_of_data_eq_nil _ (List.length_eq_zero.mp h0'))

theorem classify_headerBlock (e : Entry) (h : e.title ≠ "") :
    classify (headerBlock e) = .entry := by
  rw [headerBlock_cons]
  have hlen : (String.mk (List.replicate e.title.length '-')).length = e.title.length := by
    simp [string_mk_length]
  simp [classify, isRepeatedChar_replicate _ '-' (title_length_pos e h), hlen]

theorem strStartsWith_of_data (s p : String) (r : List Char) (h : s.data = p.data ++ r) :
    strStartsWith s p = true := by
  unfold strStartsWith
  rw [listIsPre_iff]
  exact ⟨r, h⟩

theorem tagline_data (ts : List String) :
    (tagMarker ++ " " ++ joinTags ts).data
      = tagMarker.data ++ ' ' :: (joinTags ts).data := by
  rw [string_append_data, string_append_data]
  simp [List.append_assoc]

theorem blockHasTagLine_headerBlock (e : Entry) (h : e.tags ≠ []) :
    blockHasTagLine (headerBlock e) = true := by
  have hne : e.tags.isEmpty = false := by simp [h]
  rw [headerBlock_cons, hne]
  simp only [Bool.false_eq_true, if_false]
  simp only [blockHasTagLine, List.drop]
  exact strStartsWith_of_data _ _ (' ' :: (joinTags e.tags).data) (tagline_data e.tags)

theorem splitTags_tagline (ts : List String) (hne : ts ≠ [])
    (hwf : ∀ t ∈ ts, wfTag t = true) :
    splitTags (strDrop (tagMarker ++ " " ++ joinTags ts) tagMarker.length) = ts := by
  have hdrop : strDrop (tagMarker ++ " " ++ joinTags ts) tagMarker.length
      = String.mk (' ' :: (joinTags ts).data) := by
    unfold strDrop
    rw [tagline_data]
    rfl
  rw [hdrop]
  unfold splitTags
  rw [string_mk_data]
  rw [show splitChars (' ' :: (joinTags ts).data)
      = [] :: splitChars (joinTags ts).data by simp [splitChars, isTagSep]]
  simp only [List.map_cons, List.filter_cons]
  rw [show ((String.mk [] : String) != "") = false by decide]
  simp only [Bool.false_eq_true, if_false]
  exact splitTags_of_join ts hne hwf

theorem entryFromBlock_headerBlock (e : Entry) (hwf : wfEntry e = true) :
    entryFromBlock (headerBlock e) = ⟨e.title, e.tags, []⟩ := by
  obtain ⟨htitle, htags, hbody⟩ := wfEntry_spec e hwf
  rw [headerBlock_cons]
  by_cases hte : e.tags.isEmpty
  · have h0 : e.tags = [] := List.isEmpty_iff.mp hte
    rw [if_pos hte]
    simp [entryFromBlock, h0]
  · have htne : e.tags ≠ [] := fun h => hte (by simp [h])
    rw [if_neg hte]
    simp only [entryFromBlock]
    rw [if_pos (strStartsWith_of_data _ _ (' ' :: (joinTags e.tags).data)
      (tagline_data e.tags))]
    rw [splitTags_tagline e.tags htne htags]

theorem classify_plain_of_safe (body : List String) (hne : body ≠ [])
    (hsafe : bodyBlockSafe body = true) : classify body = .plain := by
  cases body with
  | nil => exact absurd rfl hne
  | cons x rest =>
    cases rest with
    | nil => rfl
    | cons u rest' =>
      have hu : isRepeatedChar u = false := by
        unfold bodyBlockSafe at hsafe
        rw [Bool.and_eq_true] at hsafe
        have h2 := hsafe.2
        simpa using h2
      simp [classify, hu]

theorem body_noblank_of_safe (body : List String) (hsafe : bodyBlockSafe body = true) :
    ∀ x ∈ body, x ≠ "" := by
  unfold bodyBlockSafe at hsafe
  rw [Bool.and_eq_true] at hsafe
  intro x hx
  have hax := List.all_eq_true.mp hsafe.1 x hx
  simpa [bne_iff_ne] using hax

theorem headerBlock_noblank (e : Entry) (htitle : e.title ≠ "") :
    ∀ x ∈ headerBlock e, x ≠ "" := by
  rw [headerBlock_cons]
  intro x hx
  simp only [List.mem_cons] at hx
  rcases hx with rfl | rfl | hx
  · exact htitle
  · apply string_ne_empty_of_data_ne_nil
    rw [string_mk_data]
    simp [title_length_pos e htitle]
  · by_cases hte : e.tags.isEmpty
    · rw [if_pos hte] at hx
      simp at hx
    · rw [if_neg hte] at hx
      simp only [List.mem_singleton] at hx
      subst hx
      apply string_ne_empty_of_data_ne_nil
      rw [tagline_data]
      simp [tagMarker]

theorem headerBlock_ne_nil (e : Entry) : headerBlock e ≠ [] := by
  rw [headerBlock_cons]
  simp

theorem blocks_emitEntry (e : Entry) (hwf : wfEntry e = true) :
    blocks (emitEntry e) = entryBlocks e := by
  obtain ⟨htitle, htags, hbody⟩ := wfEntry_spec e hwf
  unfold emitEntry entryBlocks
  rw [blocks_append (headerBlock e) e.body]
  rw [blocks_noblank (headerBlock e) (headerBlock_ne_nil e) (headerBlock_noblank e htitle)]
  by_cases hb : e.body.isEmpty
  · have h0 : e.body = [] := List.isEmpty_iff.mp hb
    rw [if_pos hb, h0]
    rfl
  · have hni : e.body ≠ [] := fun h => hb (by simp [h])
    rw [if_neg hb, blocks_noblank e.body hni (body_noblank_of_safe e.body hbody)]
    rfl

theorem blocks_emit : ∀ (E : List Entry), (∀ e ∈ E, wfEntry e = true) →
    blocks (emit E) = E.flatMap entryBlocks := by
  intro E
  induction E with
  | nil => intro _; rfl
  | cons e rest ih =>
    intro hwf
    cases rest with
    | nil =>
      rw [show emit [e] = emitEntry e from rfl]
      rw [blocks_emitEntry e (hwf e (by simp))]
      simp
    | cons f rest' =>
      rw [show emit (e :: f :: rest') = emitEntry e ++ "" :: emit (f :: rest') from rfl]
      rw [blocks_append (emitEntry e) (emit (f :: rest'))]
      rw [blocks_emitEntry e (hwf e (by simp))]
      rw [ih (fun x hx => hwf x (List.mem_cons_of_mem _ hx))]
      simp

/-! ## Claim C1: parsing the emitted blocks -/

theorem parseRest_flatMap : ∀ (E : List Entry), (∀ x ∈ E, wfEntry x = true) →
    ∀ (cur : Entry), parseRest cur (E.flatMap entryBlocks) = .ok (cur :: E) := by
  intro E
  induction E with
  | nil => intro _ cur; rfl
  | cons e E' ih =>
    intro hwf cur
    have hwfe := hwf e (by simp)
    obtain ⟨htitle, htags, hbody⟩ := wfEntry_spec e hwfe
    have hwf' : ∀ x ∈ E', wfEntry x = true :=
      fun x hx => hwf x (List.mem_cons_of_mem _ hx)
    rw [List.flatMap_cons]
    rw [show entryBlocks e
        = headerBlock e :: (if e.body.isEmpty then [] else [e.body]) from rfl]
    rw [List.cons_append]
    have hinner : parseRest ⟨e.title, e.tags, []⟩
        ((if e.body.isEmpty then [] else [e.body]) ++ E'.flatMap entryBlocks)
        = .ok (e :: E') := by
      by_cases hb : e.body.isEmpty
      · have hb0 : e.body = [] := List.isEmpty_iff.mp hb
        rw [if_pos hb, List.nil_append, ih hwf' ⟨e.title, e.tags, []⟩]
        rw [show (⟨e.title, e.tags, []⟩ : Entry) = e by rw [← hb0]]
      · have hbne : e.body ≠ [] := fun h => hb (by simp [h])
        rw [if_neg hb, List.singleton_append]
        simp only [parseRest]
        simp only [classify_plain_of_safe e.body hbne hbody]
        have hcurup : ({ title := e.title, tags := e.tags, body := [] } : Entry).body ++ e.body
            = e.body := List.nil_append e.body
        rw [show ({ ({ title := e.title, tags := e.tags, body := [] } : Entry) with
            body := ({ title := e.title, tags := e.tags, body := [] } : Entry).body ++ e.body } : Entry)
            = e by rw [hcurup]]
        exact ih hwf' e
    simp only [parseRest]
    simp only [classify_headerBlock e htitle]
    rw [entryFromBlock_headerBlock e hwfe, hinner]

theorem parseRest_entry_body (e : Entry) (E' : List Entry) (hwfe : wfEntry e = true)
    (hwf' : ∀ x ∈ E', wfEntry x = true) :
    parseRest ⟨e.title, e.tags, []⟩
      ((if e.body.isEmpty then [] else [e.body]) ++ E'.flatMap entryBlocks)
      = .ok (e :: E') := by
  obtain ⟨htitle, htags, hbody⟩ := wfEntry_spec e hwfe
  by_cases hb : e.body.isEmpty
  · have hb0 : e.body = [] := List.isEmpty_iff.mp hb
    rw [if_pos hb, List.nil_append, parseRest_flatMap E' hwf' ⟨e.title, e.tags, []⟩]
    rw [show (⟨e.title, e.tags, []⟩ : Entry) = e by rw [← hb0]]
  · have hbne : e.body ≠ [] := fun h => hb (by simp [h])
    rw [if_neg hb, List.singleton_append]
    simp only [parseRest]
    simp only [classify_plain_of_safe e.body hbne hbody]
    have hcurup : ({ title := e.title, tags := e.tags, body := [] } : Entry).body ++ e.body
        = e.body := List.nil_append e.body
    rw [show ({ ({ title := e.title, tags := e.tags, body := [] } : Entry) with
        body := ({ title := e.title, tags := e.tags, body := [] } : Entry).body ++ e.body } : Entry)
        = e by rw [hcurup]]
    exact parseRest_flatMap E' hwf' e

/-- Claim C1 amended: the round trip `parse (emit E) = E` holds for every
entry sequence free of the notebook-preamble special case (the first entry
carries at least one tag) whose entries are well-formed: non-empty title, tag
labels non-empty and free of comma/space characters, and bodies with no blank
line and no second line consisting of a single repeated character. -/
theorem parse_emit_roundtrip (E : List Entry)
    (hwf : ∀ e ∈ E, wfEntry e = true)
    (hhead : E.head?.all (fun e => !e.tags.isEmpty) = true) :
    parse (emit E) = .ok E := by
  cases E with
  | nil => rfl
  | cons e E' =>
    have hwfe := hwf e (by simp)
    obtain ⟨htitle, htags, hbody⟩ := wfEntry_spec e hwfe
    have hwf' : ∀ x ∈ E', wfEntry x = true :=
      fun x hx => hwf x (List.mem_cons_of_mem _ hx)
    have htagne : e.tags ≠ [] := by
      intro h0
      rw [List.head?_cons] at hhead
      simp [Option.all, h0] at hhead
    unfold parse
    rw [blocks_emit (e :: E') hwf]
    rw [List.flatMap_cons]
    rw [show entryBlocks e
        = headerBlock e :: (if e.body.isEmpty then [] else [e.body]) from rfl]
    rw [List.cons_append]
    simp only [parseBlocksL]
    simp only [classify_headerBlock e htitle]
    rw [blockHasTagLine_headerBlock e htagne]
    simp only [if_true]
    rw [entryFromBlock_headerBlock e hwfe]
    exact parseRest_entry_body e E' hwfe hwf'

/-- Claim C1 counterexample: for the tagged single entry with title `A` and
body `["xx", "=="]` the emitted text re-parses into two entries (the body
looks like a new title/underline block), so the round trip fails although the
notebook-preamble special case is not involved. -/
theorem parse_emit_counterexample :
    (parse (emit [⟨"A", ["t"], ["xx", "=="]⟩])).toOption
        ≠ some [⟨"A", ["t"], ["xx", "=="]⟩]
      ∧ ([⟨"A", ["t"], ["xx", "=="]⟩] : List Entry).head?.all
          (fun e => !e.tags.isEmpty) = true := by
  constructor
  · decide
  · decide

/-- Witness for the amended claim C1 at the two-entry notebook of the spec's
concrete scenario. -/
theorem parse_emit_roundtrip_witness :
    (∀ e ∈ ([⟨"First Entry", ["work", "urgent"], ["Finish the report."]⟩,
             ⟨"Second Entry", ["personal"], ["Buy groceries."]⟩] : List Entry),
        wfEntry e = true)
      ∧ ([⟨"First Entry", ["work", "urgent"], ["Finish the report."]⟩,
          ⟨"Second Entry", ["personal"], ["Buy groceries."]⟩] : List Entry).head?.all
            (fun e => !e.tags.isEmpty) = true
      ∧ parse (emit [⟨"First Entry", ["work", "urgent"], ["Finish the report."]⟩,
          ⟨"Second Entry", ["personal"], ["Buy groceries."]⟩])
          = .ok [⟨"First Entry", ["work", "urgent"], ["Finish the report."]⟩,
                 ⟨"Second Entry", ["personal"], ["Buy groceries."]⟩] :=
  ⟨by decide, by decide,
    parse_emit_roundtrip _ (by decide) (by decide)⟩

/-! ## Claims C4 and C7: supporting lemmas on lists and buttons -/

theorem removeFirst_sublist (x : String) :
    ∀ (l : List String), List.Sublist (removeFirst x l) l := by
  intro l
  induction l with
  | nil => simp [removeFirst]
  | cons y ys ih =>
    by_cases hy : y = x
    · simp only [removeFirst, if_pos hy]
      exact List.Sublist.cons y (List.Sublist.refl ys)
    · simp only [removeFirst, if_neg hy]
      exact List.Sublist.cons₂ y ih

theorem nodup_removeFirst (x : String) (l : List String) (h : l.Nodup) :
    (removeFirst x l).Nodup :=
  List.Nodup.sublist (removeFirst_sublist x l) h

theorem mem_removeFirst (x a : String) : ∀ (l : List String), l.Nodup →
    (a ∈ removeFirst x l ↔ a ∈ l ∧ a ≠ x) := by
  intro l
  induction l with
  | nil => intro _; simp [removeFirst]
  | cons y ys ih =>
    intro hnd
    rw [List.nodup_cons] at hnd
    by_cases hy : y = x
    · subst hy
      simp only [removeFirst, if_pos rfl]
      constructor
      · intro ha
        exact ⟨List.mem_cons_of_mem _ ha, fun hax => hnd.1 (hax ▸ ha)⟩
      · rintro ⟨ha, hax⟩
        rcases List.mem_cons.mp ha with rfl | h2
        · exact absurd rfl hax
        · exact h2
    · simp only [removeFirst, if_neg hy, List.mem_cons]
      rw [ih hnd.2]
      constructor
      · rintro (rfl | ⟨ha, hax⟩)
        · exact ⟨Or.inl rfl, hy⟩
        · exact ⟨Or.inr ha, hax⟩
      · rintro ⟨rfl | ha, hax⟩
        · exact Or.inl rfl
        · exact Or.inr ⟨ha, hax⟩

theorem get?_set_self {α : Type} : ∀ (l : List α) (i : Nat) (x y : α),
    l.get? i = some x → (l.set i y).get? i = some y := by
  intro l
  induction l with
  | nil => intro i x y h; simp [List.get?] at h
  | cons a as ih =>
    intro i x y h
    cases i with
    | zero => rfl
    | succ j =>
      simp only [List.get?] at h
      simp only [List.set, List.get?]
      exact ih j x y h

theorem set_get?_eq {α : Type} : ∀ (l : List α) (i : Nat) (x : α),
    l.get? i = some x → l.set i x = l := by
  intro l
  induction l with
  | nil => intro i x h; simp [List.get?] at h
  | cons a as ih =>
    intro i x h
    cases i with
    | zero =>
      simp only [List.get?] at h
      injection h with h
      rw [List.set, h]
    | succ j =>
      simp only [List.get?] at h
      rw [List.set, ih j x h]

theorem mem_of_get? {α : Type} : ∀ (l : List α) (i : Nat) (x : α),
    l.get? i = some x → x ∈ l := by
  intro l
  induction l with
  | nil => intro i x h; simp [List.get?] at h
  | cons a as ih =>
    intro i x h
    cases i with
    | zero =>
      simp only [List.get?] at h
      injection h with h
      exact h ▸ List.mem_cons_self a as
    | succ j =>
      simp only [List.get?] at h
      exact List.mem_cons_of_mem a (ih j x h)

theorem mem_set_or {α : Type} : ∀ (l : List α) (i : Nat) (y x : α),
    x ∈ l.set i y → x ∈ l ∨ x = y := by
  intro l
  induction l with
  | nil => intro i y x h; simp [List.set] at h
  | cons a as ih =>
    intro i y x h
    cases i with
    | zero =>
      rw [List.set] at h
      rcases List.mem_cons.mp h with rfl | h2
      · exact Or.inr rfl
      · exact Or.inl (List.mem_cons_of_mem a h2)
    | succ j =>
      rw [List.set] at h
      rcases List.mem_cons.mp h with rfl | h2
      · exact Or.inl (List.mem_cons_self x as)
      · rcases ih j y x h2 with h3 | h3
        · exact Or.inl (List.mem_cons_of_mem a h3)
        · exact Or.inr h3

theorem map_fst_set (l : List (String × BtnState)) (i : Nat) (k : String)
    (b b' : BtnState) (h : l.get? i = some (k, b)) :
    (l.set i (k, b')).map Prod.fst = l.map Prod.fst := by
  induction l generalizing i with
  | nil => simp [List.get?] at h
  | cons a as ih =>
    cases i with
    | zero =>
      simp only [List.get?] at h
      injection h with h
      rw [List.set]
      simp [h]
    | succ j =>
      simp only [List.get?] at h
      rw [List.set]
      simp [ih j h]

theorem nodup_keys_unique : ∀ (l : List (String × BtnState)),
    (l.map Prod.fst).Nodup → ∀ (k : String) (b b' : BtnState),
    (k, b) ∈ l → (k, b') ∈ l → b = b' := by
  intro l
  induction l with
  | nil => intro _ k b b' h; simp at h
  | cons kb0 tl ih =>
    intro hnd k b b' h1 h2
    obtain ⟨k0, b0⟩ := kb0
    simp only [List.map_cons, List.nodup_cons] at hnd
    rcases List.mem_cons.mp h1 with hEq1 | hm1
    · rcases List.mem_cons.mp h2 with hEq2 | hm2
      · injection hEq1 with e1 e2
        injection hEq2 with e3 e4
        rw [e2, e4]
      · injection hEq1 with e1 e2
        subst e1
        exact absurd (List.mem_map.mpr ⟨(k, b'), hm2, rfl⟩) hnd.1
    · rcases List.mem_cons.mp h2 with hEq2 | hm2
      · injection hEq2 with e3 e4
        subst e3
        exact absurd (List.mem_map.mpr ⟨(k, b), hm1, rfl⟩) hnd.1
      · exact ih hnd.2 k b b' hm1 hm2

/-! ## Claims C4 and C7: supporting lemmas on button state -/

theorem qtToggle_flat (b : BtnState) : (qtToggle b).flat = b.flat := by
  unfold qtToggle
  split <;> rfl

theorem enableButton_flat (b : BtnState) : (enableButton b).flat = false := by
  unfold enableButton qtSetCheckable
  split <;> rfl

theorem enableButton_checkable (b : BtnState) : (enableButton b).checkable = true := by
  unfold enableButton qtSetCheckable
  split
  · next h => simpa using h
  · rfl

theorem enableButton_checked_of_checkable (b : BtnState) (h : b.checkable = true) :
    (enableButton b).checked = b.checked := by
  unfold enableButton qtSetCheckable
  rw [if_pos (by simp [h])]

theorem enableButton_checked_of_not (b : BtnState) (h : b.checkable = false) :
    (enableButton b).checked = false := by
  unfold enableButton qtSetCheckable
  rw [if_neg (by simp [h])]

theorem disableButton_flat (b : BtnState) : (disableButton b).flat = true := by
  unfold disableButton qtSetCheckable
  split <;> rfl

theorem disableButton_checkable (b : BtnState) : (disableButton b).checkable = false := by
  unfold disableButton qtSetCheckable
  split
  · next h => simpa using h
  · rfl

theorem disableButton_checked (b : BtnState) (h : b.checked = true → b.checkable = true) :
    (disableButton b).checked = false := by
  unfold disableButton qtSetCheckable
  split
  · next hcond =>
    simp only [beq_iff_eq] at hcond
    by_cases hc : b.checked = true
    · rw [h hc] at hcond
      exact absurd hcond (by decide)
    · simpa [Bool.not_eq_true] using hc
  · rfl

theorem mem_updateButtons (buttons : List (String × BtnState)) (remaining : List String)
    (k : String) (b' : BtnState) (h : (k, b') ∈ updateButtons buttons remaining) :
    ∃ b, (k, b) ∈ buttons ∧
      b' = (if k ∈ remaining then enableButton b else disableButton b) := by
  unfold updateButtons at h
  rcases List.mem_map.mp h with ⟨⟨k0, b0⟩, hmem, hEq⟩
  by_cases hr : k0 ∈ remaining
  · rw [if_pos hr] at hEq
    injection hEq with e1 e2
    subst e1
    exact ⟨b0, hmem, by rw [if_pos hr, e2]⟩
  · rw [if_neg hr] at hEq
    injection hEq with e1 e2
    subst e1
    exact ⟨b0, hmem, by rw [if_neg hr, e2]⟩

theorem map_fst_updateButtons (buttons : List (String × BtnState))
    (remaining : List String) :
    (updateButtons buttons remaining).map Prod.fst = buttons.map Prod.fst := by
  unfold updateButtons
  rw [List.map_map]
  apply List.map_congr_left
  intro kb _
  by_cases h : kb.1 ∈ remaining <;> simp [h]

/-! ## Claims C4 and C7: supporting lemmas on the tag filter engine -/

theorem contains_iff_mem (l : List String) (a : String) :
    l.contains a = true ↔ a ∈ l := by
  simp [List.contains, List.any_eq_true, beq_iff_eq]

theorem survives_iff (sel : List String) (e : Entry) :
    survives sel e = true ↔ ∀ t ∈ sel, t ∈ e.tags := by
  unfold survives
  simp only [List.all_eq_true]
  constructor
  · intro h t ht
    exact (contains_iff_mem _ _).mp (h t ht)
  · intro h t ht
    exact (contains_iff_mem _ _).mpr (h t ht)

theorem survives_append_singleton (sel : List String) (k : String) (e : Entry) :
    survives (sel ++ [k]) e = (survives sel e && e.tags.contains k) := by
  simp [survives, List.all_append]

theorem survives_of_sub (sel sel' : List String) (e : Entry)
    (hsub : ∀ t ∈ sel', t ∈ sel) (h : survives sel e = true) :
    survives sel' e = true := by
  rw [survives_iff] at h ⊢
  exact fun t ht => h t (hsub t ht)

theorem mem_remainingTagKeys (entries : List Entry) (sel : List String) (k : String) :
    k ∈ remainingTagKeys entries sel ↔
      ∃ e ∈ entries, survives sel e = true ∧ k ∈ e.tags := by
  unfold remainingTagKeys survivingEntries
  rw [List.mem_dedup, List.mem_flatMap]
  constructor
  · rintro ⟨e, he, hk⟩
    rw [List.mem_filter] at he
    exact ⟨e, he.1, he.2, hk⟩
  · rintro ⟨e, he, hs, hk⟩
    exact ⟨e, List.mem_filter.mpr ⟨he, hs⟩, hk⟩

theorem mem_remaining_map_fst (entries : List Entry) (sel : List String) (k : String) :
    k ∈ (tagCardinalityMap entries sel).map Prod.fst ↔
      k ∈ remainingTagKeys entries sel := by
  unfold tagCardinalityMap
  rw [List.map_map]
  simp

/-! ## Claim C7: the invariant is preserved by every click -/

theorem filterInv_after_update (entries : List Entry)
    (buttons1 : List (String × BtnState)) (filters' : List String)
    (hndk : (buttons1.map Prod.fst).Nodup)
    (hnd' : filters'.Nodup)
    (hchk1 : ∀ kb ∈ buttons1, (kb.2.checked = true ↔ kb.1 ∈ filters'))
    (hchkable1 : ∀ kb ∈ buttons1, kb.2.checked = true → kb.2.checkable = true)
    (hfsub : ∀ t ∈ filters', t ∈ buttons1.map Prod.fst)
    (hsurv : filters' ≠ [] → ∃ e ∈ entries, survives filters' e = true) :
    FilterInv entries
      ⟨updateButtons buttons1 ((tagCardinalityMap entries filters').map Prod.fst),
        filters'⟩ := by
  have hmemrem : ∀ k, k ∈ (tagCardinalityMap entries filters').map Prod.fst ↔
      ∃ e ∈ entries, survives filters' e = true ∧ k ∈ e.tags :=
    fun k => (mem_remaining_map_fst entries filters' k).trans
      (mem_remainingTagKeys entries filters' k)
  have hfiltrem : ∀ k ∈ filters', k ∈ (tagCardinalityMap entries filters').map Prod.fst := by
    intro k hk
    obtain ⟨e, he, hs⟩ := hsurv (fun h => by rw [h] at hk; simp at hk)
    exact (hmemrem k).mpr ⟨e, he, hs, (survives_iff _ _).mp hs k hk⟩
  refine ⟨?_, ?_, ?_, hnd', ?_, ?_, ?_⟩
  · rw [map_fst_updateButtons]
    exact hndk
  · intro kb hkb
    obtain ⟨k, b'⟩ := kb
    obtain ⟨b, hmem, hb'⟩ := mem_updateButtons _ _ _ _ hkb
    by_cases hr : k ∈ (tagCardinalityMap entries filters').map Prod.fst
    · rw [if_pos hr] at hb'
      subst hb'
      simp [enableButton_flat, enableButton_checkable]
    · rw [if_neg hr] at hb'
      subst hb'
      simp [disableButton_flat, disableButton_checkable]
  · intro kb hkb hc
    obtain ⟨k, b'⟩ := kb
    obtain ⟨b, hmem, hb'⟩ := mem_updateButtons _ _ _ _ hkb
    by_cases hr : k ∈ (tagCardinalityMap entries filters').map Prod.fst
    · rw [if_pos hr] at hb'
      subst hb'
      exact enableButton_flat b
    · rw [if_neg hr] at hb'
      subst hb'
      rw [disableButton_checked b (hchkable1 (k, b) hmem)] at hc
      exact absurd hc (by decide)
  · intro kb hkb
    obtain ⟨k, b'⟩ := kb
    obtain ⟨b, hmem, hb'⟩ := mem_updateButtons _ _ _ _ hkb
    by_cases hr : k ∈ (tagCardinalityMap entries filters').map Prod.fst
    · rw [if_pos hr] at hb'
      subst hb'
      by_cases hcb : b.checkable = true
      · rw [enableButton_checked_of_checkable b hcb]
        exact hchk1 (k, b) hmem
      · have hcb' : b.checkable = false := by simpa using hcb
        rw [enableButton_checked_of_not b hcb']
        constructor
        · intro hFalse
          exact absurd hFalse (by decide)
        · intro hkf
          have hbc : b.checked = true := (hchk1 (k, b) hmem).mpr hkf
          rw [hchkable1 (k, b) hmem hbc] at hcb'
          exact absurd hcb' (by decide)
    · rw [if_neg hr] at hb'
      subst hb'
      rw [disableButton_checked b (hchkable1 (k, b) hmem)]
      constructor
      · intro hFalse
        exact absurd hFalse (by decide)
      · intro hkf
        exact absurd (hfiltrem k hkf) hr
  · intro t ht
    rw [map_fst_updateButtons]
    exact hfsub t ht
  · intro kb hkb hflat
    obtain ⟨k, b'⟩ := kb
    obtain ⟨b, hmem, hb'⟩ := mem_updateButtons _ _ _ _ hkb
    by_cases hr : k ∈ (tagCardinalityMap entries filters').map Prod.fst
    · obtain ⟨e, he, hs, hk⟩ := (hmemrem k).mp hr
      exact ⟨e, he, hs, hk⟩
    · rw [if_neg hr] at hb'
      subst hb'
      rw [disableButton_flat b] at hflat
      exact absurd hflat (by decide)

theorem filterInv_step (entries : List Entry) (st : PreviewUI)
    (inv : FilterInv entries st) (i : Nat) :
    FilterInv entries (addFilterClick entries st i) := by
  rcases hget : st.tagButtons.get? i with _ | ⟨key, b⟩
  · simp only [addFilterClick]
    rw [hget]
    exact inv
  · obtain ⟨bf, bc, bch⟩ := b
    have hmemb : (key, (⟨bf, bc, bch⟩ : BtnState)) ∈ st.tagButtons :=
      mem_of_get? _ _ _ hget
    have hflatIff := inv.flatIff (key, ⟨bf, bc, bch⟩) hmemb
    by_cases hbf : bf = true
    · subst hbf
      have hck : bc = false := by
        cases bc with
        | false => rfl
        | true => simp at hflatIff
      subst hck
      simp only [addFilterClick, hget]
      show FilterInv entries
        { st with tagButtons := st.tagButtons.set i (key, ⟨true, false, bch⟩) }
      rw [set_get?_eq _ _ _ hget]
      exact inv
    · have hbf' : bf = false := by simpa using hbf
      subst hbf'
      have hck : bc = true := by
        cases bc with
        | false => simp at hflatIff
        | true => rfl
      subst hck
      have hwitness := inv.enabledWitness (key, ⟨false, true, bch⟩) hmemb rfl
      by_cases hchk : bch = true
      · subst hchk
        -- the button was checked: it is unchecked, `key` leaves the filter
        have hkey_in : key ∈ st.filters :=
          (inv.checkedIff (key, ⟨false, true, true⟩) hmemb).mp rfl
        have hndk1 : ((st.tagButtons.set i (key, ⟨false, true, false⟩)).map Prod.fst).Nodup := by
          rw [map_fst_set _ _ _ _ _ hget]
          exact inv.nodupKeys
        have hmem1 : (key, (⟨false, true, false⟩ : BtnState))
            ∈ st.tagButtons.set i (key, ⟨false, true, false⟩) :=
          mem_of_get? _ _ _ (get?_set_self _ _ _ _ hget)
        have hbt1 : ∀ kb ∈ st.tagButtons.set i (key, ⟨false, true, false⟩),
            (kb.1 = key ∧ kb.2 = ⟨false, true, false⟩)
              ∨ (kb.1 ≠ key ∧ kb ∈ st.tagButtons) := by
          intro kb hkb
          obtain ⟨k0, b0⟩ := kb
          by_cases hk : k0 = key
          · subst hk
            exact Or.inl ⟨rfl, nodup_keys_unique _ hndk1 k0 _ _ hkb hmem1⟩
          · refine Or.inr ⟨hk, ?_⟩
            rcases mem_set_or _ _ _ _ hkb with h | h
            · exact h
            · injection h with h1 h2
              exact absurd h1 hk
        have hnd' : (removeFirst key st.filters).Nodup :=
          nodup_removeFirst key st.filters inv.nodupFilters
        have hchk1 : ∀ kb ∈ st.tagButtons.set i (key, ⟨false, true, false⟩),
            (kb.2.checked = true ↔ kb.1 ∈ removeFirst key st.filters) := by
          intro kb hkb
          rcases hbt1 kb hkb with ⟨hk1, hk2⟩ | ⟨hk1, hk2⟩
          · rw [hk1, hk2, mem_removeFirst key key st.filters inv.nodupFilters]
            simp
          · rw [mem_removeFirst key kb.1 st.filters inv.nodupFilters]
            have hiff := inv.checkedIff kb hk2
            constructor
            · intro hc
              exact ⟨hiff.mp hc, hk1⟩
            · rintro ⟨hm, -⟩
              exact hiff.mpr hm
        have hchkable1 : ∀ kb ∈ st.tagButtons.set i (key, ⟨false, true, false⟩),
            kb.2.checked = true → kb.2.checkable = true := by
          intro kb hkb hc
          rcases hbt1 kb hkb with ⟨hk1, hk2⟩ | ⟨hk1, hk2⟩
          · rw [hk2]
          · have hfl := inv.checkedEnabled kb hk2 hc
            have hfi := inv.flatIff kb hk2
            rw [hfl] at hfi
            cases hcc : kb.2.checkable with
            | false => rw [hcc] at hfi; simp at hfi
            | true => rfl
        have hfsub1 : ∀ t ∈ removeFirst key st.filters,
            t ∈ (st.tagButtons.set i (key, ⟨false, true, false⟩)).map Prod.fst := by
          intro t ht
          rw [map_fst_set _ _ _ _ _ hget]
          exact inv.filtersSub t
            ((mem_removeFirst key t st.filters inv.nodupFilters).mp ht).1
        have hsurv1 : removeFirst key st.filters ≠ [] →
            ∃ e ∈ entries, survives (removeFirst key st.filters) e = true := by
          intro _
          obtain ⟨e, he, hs, hk⟩ := hwitness
          refine ⟨e, he, survives_of_sub _ _ _ ?_ hs⟩
          intro t ht
          exact ((mem_removeFirst key t st.filters inv.nodupFilters).mp ht).1
        simp only [addFilterClick, hget]
        exact filterInv_after_update entries _ _ hndk1 hnd' hchk1 hchkable1 hfsub1 hsurv1
      · have hchk' : bch = false := by simpa using hchk
        subst hchk'
        -- the button was unchecked: it is checked, `key` joins the filter
        have hkey_nin : key ∉ st.filters := by
          intro hk
          have hcontra := (inv.checkedIff (key, ⟨false, true, false⟩) hmemb).mpr hk
          simp at hcontra
        have hndk1 : ((st.tagButtons.set i (key, ⟨false, true, true⟩)).map Prod.fst).Nodup := by
          rw [map_fst_set _ _ _ _ _ hget]
          exact inv.nodupKeys
        have hmem1 : (key, (⟨false, true, true⟩ : BtnState))
            ∈ st.tagButtons.set i (key, ⟨false, true, true⟩) :=
          mem_of_get? _ _ _ (get?_set_self _ _ _ _ hget)
        have hbt1 : ∀ kb ∈ st.tagButtons.set i (key, ⟨false, true, true⟩),
            (kb.1 = key ∧ kb.2 = ⟨false, true, true⟩)
              ∨ (kb.1 ≠ key ∧ kb ∈ st.tagButtons) := by
          intro kb hkb
          obtain ⟨k0, b0⟩ := kb
          by_cases hk : k0 = key
          · subst hk
            exact Or.inl ⟨rfl, nodup_keys_unique _ hndk1 k0 _ _ hkb hmem1⟩
          · refine Or.inr ⟨hk, ?_⟩
            rcases mem_set_or _ _ _ _ hkb with h | h
            · exact h
            · injection h with h1 h2
              exact absurd h1 hk
        have hnd' : (st.filters ++ [key]).Nodup := by
          rw [List.nodup_append]
          refine ⟨inv.nodupFilters, List.nodup_singleton key, ?_⟩
          intro a ha hb
          rw [List.mem_singleton] at hb
          subst hb
          exact hkey_nin ha
        have hchk1 : ∀ kb ∈ st.tagButtons.set i (key, ⟨false, true, true⟩),
            (kb.2.checked = true ↔ kb.1 ∈ st.filters ++ [key]) := by
          intro kb hkb
          rcases hbt1 kb hkb with ⟨hk1, hk2⟩ | ⟨hk1, hk2⟩
          · rw [hk1, hk2]
            simp
          · have hiff := inv.checkedIff kb hk2
            constructor
            · intro hc
              exact List.mem_append.mpr (Or.inl (hiff.mp hc))
            · intro hm
              rcases List.mem_append.mp hm with hm | hm
              · exact hiff.mpr hm
              · rw [List.mem_singleton] at hm
                exact absurd hm hk1
        have hchkable1 : ∀ kb ∈ st.tagButtons.set i (key, ⟨false, true, true⟩),
            kb.2.checked = true → kb.2.checkable = true := by
          intro kb hkb hc
          rcases hbt1 kb hkb with ⟨hk1, hk2⟩ | ⟨hk1, hk2⟩
          · rw [hk2]
          · have hfl := inv.checkedEnabled kb hk2 hc
            have hfi := inv.flatIff kb hk2
            rw [hfl] at hfi
            cases hcc : kb.2.checkable with
            | false => rw [hcc] at hfi; simp at hfi
            | true => rfl
        have hfsub1 : ∀ t ∈ st.filters ++ [key],
            t ∈ (st.tagButtons.set i (key, ⟨false, true, true⟩)).map Prod.fst := by
          intro t ht
          rw [map_fst_set _ _ _ _ _ hget]
          rcases List.mem_append.mp ht with ht | ht
          · exact inv.filtersSub t ht
          · rw [List.mem_singleton] at ht
            subst ht
            exact List.mem_map.mpr ⟨(t, ⟨false, true, false⟩), hmemb, rfl⟩
        have hsurv1 : st.filters ++ [key] ≠ [] →
            ∃ e ∈ entries, survives (st.filters ++ [key]) e = true := by
          intro _
          obtain ⟨e, he, hs, hk⟩ := hwitness
          refine ⟨e, he, ?_⟩
          rw [survives_append_singleton, hs, (contains_iff_mem _ _).mpr hk]
          rfl
        simp only [addFilterClick, hget]
        exact filterInv_after_update entries _ _ hndk1 hnd' hchk1 hchkable1 hfsub1 hsurv1

theorem filterInv_init (entries : List Entry) (keys : List String)
    (hnd : keys.Nodup) (hk : ∀ k ∈ keys, ∃ e ∈ entries, k ∈ e.tags) :
    FilterInv entries (initPreview keys) := by
  have hmemchar : ∀ kb ∈ initButtons keys,
      kb.1 ∈ keys ∧ kb.2 = (⟨false, true, false⟩ : BtnState) := by
    intro kb hkb
    rcases List.mem_map.mp hkb with ⟨k, hkmem, hEq⟩
    rw [← hEq]
    exact ⟨hkmem, rfl⟩
  have hmapid : ∀ ks : List String, (initButtons ks).map Prod.fst = ks := by
    intro ks
    induction ks with
    | nil => rfl
    | cons a as ih =>
      unfold initButtons at ih ⊢
      simp only [List.map_cons]
      rw [ih]
  refine ⟨?_, ?_, ?_, List.nodup_nil, ?_, ?_, ?_⟩
  · show ((initButtons keys).map Prod.fst).Nodup
    rw [hmapid keys]
    exact hnd
  · intro kb hkb
    rw [(hmemchar kb hkb).2]
    rfl
  · intro kb hkb hc
    rw [(hmemchar kb hkb).2] at hc
    exact absurd hc (by decide)
  · intro kb hkb
    rw [(hmemchar kb hkb).2]
    simp [initPreview]
  · intro t ht
    simp [initPreview] at ht
  · intro kb hkb _
    obtain ⟨e, he, hke⟩ := hk kb.1 (hmemchar kb hkb).1
    exact ⟨e, he, by simp [survives, initPreview], hke⟩

theorem filterInv_clickSeq (entries : List Entry) :
    ∀ (clicks : List Nat) (st : PreviewUI), FilterInv entries st →
      FilterInv entries (clickSeq entries st clicks) := by
  intro clicks
  induction clicks with
  | nil => exact fun st inv => inv
  | cons c cs ih =>
    intro st inv
    exact ih (addFilterClick entries st c) (filterInv_step entries st inv c)

/-- Claim C7: starting from the empty filter list created by
`Preview.initLogic`, after any sequence of tag-button clicks handled by
`Preview.addFilter`, the list `self.filters` is duplicate-free and consists
exactly of the labels of the currently-checked tag buttons. -/
theorem preview_filters_invariant (entries : List Entry) (keys : List String)
    (clicks : List Nat) (hnd : keys.Nodup)
    (hk : ∀ k ∈ keys, ∃ e ∈ entries, k ∈ e.tags) :
    (clickSeq entries (initPreview keys) clicks).filters.Nodup
      ∧ ∀ t, t ∈ (clickSeq entries (initPreview keys) clicks).filters ↔
          ∃ kb ∈ (clickSeq entries (initPreview keys) clicks).tagButtons,
            kb.1 = t ∧ kb.2.checked = true := by
  have inv := filterInv_clickSeq entries clicks (initPreview keys)
    (filterInv_init entries keys hnd hk)
  refine ⟨inv.nodupFilters, fun t => ⟨?_, ?_⟩⟩
  · intro ht
    have hmap := inv.filtersSub t ht
    rcases List.mem_map.mp hmap with ⟨kb, hkb, hfst⟩
    exact ⟨kb, hkb, hfst, (inv.checkedIff kb hkb).mpr (hfst ▸ ht)⟩
  · rintro ⟨kb, hkb, rfl, hchk⟩
    exact (inv.checkedIff kb hkb).mp hchk

/-- Witness for claim C7 at a concrete two-entry notebook with three tags and
a click sequence that checks, partly unchecks and re-checks buttons. -/
theorem preview_filters_invariant_witness :
    (["work", "urgent", "personal"] : List String).Nodup
      ∧ (∀ k ∈ (["work", "urgent", "personal"] : List String),
          ∃ e ∈ ([⟨"A", ["work", "urgent"], []⟩, ⟨"B", ["personal"], []⟩] : List Entry),
            k ∈ e.tags)
      ∧ ((clickSeq [⟨"A", ["work", "urgent"], []⟩, ⟨"B", ["personal"], []⟩]
            (initPreview ["work", "urgent", "personal"]) [0, 1, 0]).filters.Nodup
        ∧ ∀ t, t ∈ (clickSeq [⟨"A", ["work", "urgent"], []⟩, ⟨"B", ["personal"], []⟩]
            (initPreview ["work", "urgent", "personal"]) [0, 1, 0]).filters ↔
            ∃ kb ∈ (clickSeq [⟨"A", ["work", "urgent"], []⟩, ⟨"B", ["personal"], []⟩]
              (initPreview ["work", "urgent", "personal"]) [0, 1, 0]).tagButtons,
              kb.1 = t ∧ kb.2.checked = true) :=
  ⟨by decide, by decide,
    preview_filters_invariant [⟨"A", ["work", "urgent"], []⟩, ⟨"B", ["personal"], []⟩]
      ["work", "urgent", "personal"] [0, 1, 0] (by decide) (by decide)⟩

/-! ## Claim C4 -/

/-- Claim C4: after a filter evaluation (the update loop shared by
`Preview.addFilter` and `Preview.reload`), a tag button is left enabled
(non-flat, checkable) if and only if its label is a key of the remaining-tags
map returned by the conversion, and every button whose label is absent from
that map is left disabled (flat, non-checkable). -/
theorem updateButtons_enabled_iff (buttons : List (String × BtnState))
    (entries : List Entry) (sel : List String) (k : String) (b' : BtnState)
    (h : (k, b') ∈ updateButtons buttons ((tagCardinalityMap entries sel).map Prod.fst)) :
    ((b'.flat = false ∧ b'.checkable = true) ↔
        k ∈ (tagCardinalityMap entries sel).map Prod.fst)
      ∧ (k ∉ (tagCardinalityMap entries sel).map Prod.fst →
          b'.flat = true ∧ b'.checkable = false) := by
  obtain ⟨b, hmem, hb'⟩ := mem_updateButtons _ _ _ _ h
  by_cases hr : k ∈ (tagCardinalityMap entries sel).map Prod.fst
  · rw [if_pos hr] at hb'
    subst hb'
    exact ⟨⟨fun _ => hr, fun _ => ⟨enableButton_flat b, enableButton_checkable b⟩⟩,
      fun hn => absurd hr hn⟩
  · rw [if_neg hr] at hb'
    subst hb'
    refine ⟨⟨fun hc => ?_, fun hc => absurd hc hr⟩,
      fun _ => ⟨disableButton_flat b, disableButton_checkable b⟩⟩
    rw [disableButton_flat b] at hc
    exact absurd hc.1 (by decide)

/-- Witness for claim C4 at a concrete single-button state. -/
theorem updateButtons_enabled_iff_witness :
    (("work", (⟨false, true, false⟩ : BtnState)) ∈
        updateButtons [("work", ⟨false, true, false⟩)]
          ((tagCardinalityMap [⟨"A", ["work"], []⟩] []).map Prod.fst))
      ∧ ((((⟨false, true, false⟩ : BtnState).flat = false
            ∧ (⟨false, true, false⟩ : BtnState).checkable = true) ↔
          "work" ∈ (tagCardinalityMap [⟨"A", ["work"], []⟩] []).map Prod.fst)
        ∧ ("work" ∉ (tagCardinalityMap [⟨"A", ["work"], []⟩] []).map Prod.fst →
            (⟨false, true, false⟩ : BtnState).flat = true
              ∧ (⟨false, true, false⟩ : BtnState).checkable = false)) :=
  ⟨by decide,
    updateButtons_enabled_iff [("work", ⟨false, true, false⟩)] [⟨"A", ["work"], []⟩] []
      "work" ⟨false, true, false⟩ (by decide)⟩

end NoteOrganiser
